import Mathlib

/-!
fontedit: the main-window model

A shallow embedding of `src/app/mainwindowmodel.h` (the `UIState` record and the
inline member functions of `MainWindowModel`), together with models of the
glyph-editing and source-code-generation operations that the header only
declares.

Conventions of the embedding:

* `QString` is a type parameter of the model that carries the linear order of
  `QString::operator<`; every statement about the model holds for every such
  type, so nothing depends on how strings are compared.  The sample model
  takes `String` for it and holds ASCII text only.  `std::optional<T>` is
  `Option T`.
* A `const` member function is a pure function of the model; `constCall`
  puts it in state-passing form (result, model afterwards).
* A C++ enumeration is embedded as its list of enumerators with their
  initialisers; the numeric value of an enumerator is computed by the rule
  of the language (first one 0, otherwise predecessor plus one, unless an
  initialiser is given).
* Member functions that are declared in the header but defined elsewhere
  (`reloadSourceCode`) are parameters of the functions that call them.
-/

namespace FontEdit

/-! ## C++ enumerations -/

/-- Initialiser of one enumerator in an enum declaration. -/
inductive EnumInit (ι : Type) where
  /-- No initialiser: 0 for the first enumerator, predecessor + 1 otherwise. -/
  | implicit : EnumInit ι
  /-- An integer literal, as in `ActionAddGlyph = 0`. -/
  | literal : Nat → EnumInit ι
  /-- An earlier enumerator, as in `ActionFirst = ActionAddGlyph`. -/
  | sameAs : ι → EnumInit ι

/-- Value already assigned to enumerator `e` in the table `env`. -/
def enumLookup {ι : Type} [DecidableEq ι] (env : List (ι × Nat)) (e : ι) : Option Nat :=
  match env with
  | [] => none
  | (k, v) :: rest => if k = e then some v else enumLookup rest e

/-- Values of the enumerators of a declaration, in declaration order.
`next` is the value an enumerator without initialiser receives and `env`
the enumerators seen so far.  A reference to an enumerator that has not
been declared yet makes the declaration ill-formed (`none`). -/
def enumValuesFrom {ι : Type} [DecidableEq ι] :
    List (ι × EnumInit ι) → Nat → List (ι × Nat) → Option (List (ι × Nat))
  | [], _, env => some env
  | (e, .implicit) :: rest, next, env => enumValuesFrom rest (next + 1) (env ++ [(e, next)])
  | (e, .literal n) :: rest, _, env => enumValuesFrom rest (n + 1) (env ++ [(e, n)])
  | (e, .sameAs o) :: rest, _, env =>
    match enumLookup env o with
    | none => none
    | some n => enumValuesFrom rest (n + 1) (env ++ [(e, n)])

/-- Value table of an enum declaration. -/
def enumValues {ι : Type} [DecidableEq ι] (decl : List (ι × EnumInit ι)) : Option (List (ι × Nat)) :=
  enumValuesFrom decl 0 []

/-! ## UIState -/

/-- Enumerators of `UIState::InterfaceAction` (names, not values: `ActionFirst`
and `ActionAddGlyph` are two names of one value). -/
inductive InterfaceAction where
  | ActionAddGlyph
  | ActionDeleteGlyph
  | ActionSave
  | ActionClose
  | ActionCopy
  | ActionPaste
  | ActionPrint
  | ActionExport
  | ActionTabEdit
  | ActionTabCode
  | ActionCount
  | ActionFirst
  deriving DecidableEq, Repr

/-- The declaration `enum InterfaceAction { ActionAddGlyph = 0, ..., ActionCount,
ActionFirst = ActionAddGlyph }`, enumerator by enumerator. -/
def InterfaceAction.declaration : List (InterfaceAction × EnumInit InterfaceAction) :=
  [ (.ActionAddGlyph, .literal 0),
    (.ActionDeleteGlyph, .implicit),
    (.ActionSave, .implicit),
    (.ActionClose, .implicit),
    (.ActionCopy, .implicit),
    (.ActionPaste, .implicit),
    (.ActionPrint, .implicit),
    (.ActionExport, .implicit),
    (.ActionTabEdit, .implicit),
    (.ActionTabCode, .implicit),
    (.ActionCount, .implicit),
    (.ActionFirst, .sameAs .ActionAddGlyph) ]

/-- Numeric value of an enumerator of `InterfaceAction`. -/
def InterfaceAction.toNat (a : InterfaceAction) : Nat :=
  match enumValues InterfaceAction.declaration with
  | none => 0
  | some env => (enumLookup env a).getD 0

/-- The ten enumerators that name an action flag, in declaration order. -/
def InterfaceAction.named : List InterfaceAction :=
  [ .ActionAddGlyph, .ActionDeleteGlyph, .ActionSave, .ActionClose, .ActionCopy,
    .ActionPaste, .ActionPrint, .ActionExport, .ActionTabEdit, .ActionTabCode ]

/-- Enumerators of `UIState::UserAction`. -/
inductive UserAction where
  | UserIdle
  | UserLoadedDocument
  | UserLoadedGlyph
  deriving DecidableEq, Repr

/-- Enumerators of `UIState::Message`. -/
inductive Message where
  | MessageIdle
  | MessageLoadedFace
  | MessageLoadedGlyph
  deriving DecidableEq, Repr

/-- Enumerators of `UIState::Tab`. -/
inductive Tab where
  | TabEdit
  | TabCode
  deriving DecidableEq, Repr

/-- A `std::bitset<n>`: exactly `n` flags. -/
structure Bitset (n : Nat) where
  bits : List Bool
  size_eq : bits.length = n

/-- Value-initialised bitset: every flag is off. -/
def Bitset.zero (n : Nat) : Bitset n :=
  ⟨List.replicate n false, List.length_replicate n false⟩

/-- Number of flags, `std::bitset::size`. -/
def Bitset.size {n : Nat} (_ : Bitset n) : Nat := n

/-- Checked read of flag `i`, `std::bitset::test`: `none` stands for the
out-of-range failure. -/
def Bitset.test {n : Nat} (b : Bitset n) (i : Nat) : Option Bool :=
  if i < n then b.bits[i]? else none

/-- Checked write of flag `i`, `std::bitset::set(pos, value)`: `none` stands for
the out-of-range failure. -/
def Bitset.set {n : Nat} (b : Bitset n) (i : Nat) (v : Bool) : Option (Bitset n) :=
  if i < n then some ⟨b.bits.set i v, by rw [List.length_set]; exact b.size_eq⟩ else none

/-- The record `UIState`; `actions` is a `std::bitset<ActionCount>`. -/
structure UIState where
  actions : Bitset InterfaceAction.ActionCount.toNat
  lastUserAction : UserAction
  statusBarMessage : Message
  selectedTab : Tab

/-- Value-initialised `UIState {}`. -/
def UIState.init : UIState :=
  { actions := Bitset.zero _
    lastUserAction := .UserIdle
    statusBarMessage := .MessageIdle
    selectedTab := .TabEdit }

/-! ## Qt::CheckState -/

/-- Enumerators of `Qt::CheckState`. -/
inductive CheckState where
  | Unchecked
  | PartiallyChecked
  | Checked
  deriving DecidableEq, Repr

/-- Numeric values of `Qt::CheckState`: Unchecked 0, PartiallyChecked 1, Checked 2. -/
def CheckState.toNat : CheckState → Nat
  | .Unchecked => 0
  | .PartiallyChecked => 1
  | .Checked => 2

/-- Implicit conversion of an enumeration value to `bool`: non-zero is true. -/
def CheckState.toBool (c : CheckState) : Bool :=
  decide (c.toNat ≠ 0)

/-! ## QMap -/

/-- A `QMap<K, V>`: entries kept in strictly increasing key order, one entry
per key.  The order is that of the key type (`operator<` of `K`), a
parameter of the structure. -/
structure QMap (K V : Type) [LinearOrder K] where
  entries : List (K × V)
  sorted : entries.Pairwise (fun a b => a.1 < b.1)

/-- Lookup with default, `QMap::value(key, defaultValue)`. -/
def QMap.value {K V : Type} [LinearOrder K] (m : QMap K V) (key : K) (defaultValue : V) : V :=
  match m.entries.find? (fun e => decide (e.1 = key)) with
  | some e => e.2
  | none => defaultValue

/-- Value of the entry with the smallest key, `QMap::first()`.  Calling it on
an empty map is undefined; that case is `none`. -/
def QMap.first {K V : Type} [LinearOrder K] (m : QMap K V) : Option V :=
  m.entries.head?.map Prod.snd

/-- Test for emptiness, `QMap::isEmpty()`. -/
def QMap.isEmpty {K V : Type} [LinearOrder K] (m : QMap K V) : Bool :=
  m.entries.isEmpty

/-! ## Glyphs and faces -/

/-- A pixel coordinate within a glyph cell. -/
structure Point where
  x : Int
  y : Int
  deriving DecidableEq, Repr

/-- Modelled from the spec: the glyph type `f2b::font::glyph` (header `f2b.h`
is not among the sources).  A fixed-dimension bitmap of width × height bits,
stored row by row, and the exported flag. -/
structure Glyph where
  width : Nat
  height : Nat
  pixels : List Bool
  exported : Bool
  deriving DecidableEq, Repr

/-- The bitmap holds exactly width × height bits. -/
def Glyph.WellFormed (g : Glyph) : Prop :=
  g.pixels.length = g.width * g.height

instance (g : Glyph) : Decidable g.WellFormed :=
  inferInstanceAs (Decidable (g.pixels.length = g.width * g.height))

/-- The coordinate lies within [0, width) × [0, height). -/
def Glyph.inBounds (g : Glyph) (p : Point) : Bool :=
  decide (0 ≤ p.x) && decide (p.x < g.width) && decide (0 ≤ p.y) && decide (p.y < g.height)

/-- Position of an in-bounds coordinate in the row-major bitmap. -/
def Glyph.offset (g : Glyph) (p : Point) : Nat :=
  p.y.toNat * g.width + p.x.toNat

/-- Bit at a coordinate; coordinates outside the cell read as 0. -/
def Glyph.getPixel (g : Glyph) (p : Point) : Bool :=
  g.inBounds p && g.pixels.getD (g.offset p) false

/-- Glyph with the bit at an in-bounds coordinate replaced. -/
def Glyph.setPixel (g : Glyph) (p : Point) (b : Bool) : Glyph :=
  { g with pixels := g.pixels.set (g.offset p) b }

/-- Modelled from the spec: the face type `f2b::font::face` behind
`FontFaceViewModel` (neither header is among the sources).  An ordered
sequence of glyphs plus the face metadata: name, point size and the cell
dimensions shared by all glyphs. -/
structure Face where
  name : String
  pointSize : Nat
  cellWidth : Nat
  cellHeight : Nat
  glyphs : List Glyph
  deriving DecidableEq, Repr

/-- Error taxonomy of the mutation entry points. -/
inductive Error where
  | DimensionMismatch
  | IndexOutOfRange
  | CoordinateOutOfRange
  | DocumentParseError
  | IOError
  deriving DecidableEq, Repr

/-- Change kinds of a batch pixel change. -/
inductive ChangeType where
  | Set
  | Clear
  | Toggle
  | PaintStroke
  deriving DecidableEq, Repr

/-- Modelled from the spec: `BatchPixelChange` (its header is not among the
sources).  A mapping from pixel coordinate to new bit value, kept as the list
of its (coordinate, bit) entries. -/
structure BatchPixelChange where
  changes : List (Point × Bool)
  deriving DecidableEq, Repr

/-- Coordinates listed in the change. -/
def BatchPixelChange.coordinates (c : BatchPixelChange) : List Point :=
  c.changes.map Prod.fst

/-- The entries form a mapping: no coordinate is listed twice. -/
def BatchPixelChange.IsMapping (c : BatchPixelChange) : Prop :=
  c.coordinates.Nodup

instance (c : BatchPixelChange) : Decidable c.IsMapping :=
  inferInstanceAs (Decidable c.coordinates.Nodup)

/-- Bit a listed coordinate receives: Set gives 1, Clear gives 0, Toggle the
complement of the current bit, PaintStroke the bit carried in the change. -/
def ChangeType.result (t : ChangeType) (current carried : Bool) : Bool :=
  match t with
  | .Set => true
  | .Clear => false
  | .Toggle => !current
  | .PaintStroke => carried

/-- One entry of a change applied to a glyph. -/
def applyChange (t : ChangeType) (g : Glyph) (e : Point × Bool) : Glyph :=
  g.setPixel e.1 (t.result (g.getPixel e.1) e.2)

/-- Modelled from the spec: application of a batch pixel change to one glyph
(section 4.2; the body is not among the sources).  Every coordinate is
validated first; any coordinate outside the cell fails the whole change with
CoordinateOutOfRange, otherwise the entries are applied one after another. -/
def BatchPixelChange.apply (c : BatchPixelChange) (g : Glyph) (t : ChangeType) : Except Error Glyph :=
  if c.coordinates.all g.inBounds then
    .ok (c.changes.foldl (applyChange t) g)
  else
    .error .CoordinateOutOfRange

/-- Modelled from the spec: `MainWindowModel::modifyGlyph(index, change,
changeType)` on the face (declared in the header, body not among the
sources).  The result pairs the outcome reported to the caller with the face
after the call; a failing call leaves the face as it was. -/
def modifyGlyph (f : Face) (index : Nat) (change : BatchPixelChange) (changeType : ChangeType) :
    Except Error Unit × Face :=
  match f.glyphs[index]? with
  | none => (.error .IndexOutOfRange, f)
  | some g =>
    match change.apply g changeType with
    | .error e => (.error e, f)
    | .ok g' => (.ok (), { f with glyphs := f.glyphs.set index g' })

/-- Modelled from the spec: `MainWindowModel::resetGlyph(index)` on the face
(declared in the header, body not among the sources).  The bitmap of the
glyph is cleared to all-zero at the same dimensions, the exported flag is
kept; an invalid index fails with IndexOutOfRange. -/
def resetGlyph (f : Face) (index : Nat) : Except Error Unit × Face :=
  match f.glyphs[index]? with
  | none => (.error .IndexOutOfRange, f)
  | some g =>
    let cleared : Glyph := { g with pixels := List.replicate (g.width * g.height) false }
    (.ok (), { f with glyphs := f.glyphs.set index cleared })

/-! ## Source-code options and generation -/

/-- Enumerators of `f2b::source_code_options::export_method_type`. -/
inductive export_method_type where
  | export_selected
  | export_all
  deriving DecidableEq, Repr

/-- Enumerators of `f2b::source_code_options::bit_numbering_type`. -/
inductive bit_numbering_type where
  | lsb
  | msb
  deriving DecidableEq, Repr

/-- Indentation styles of the generated text. -/
inductive indentation where
  | tab
  | space (count : Nat)
  deriving DecidableEq, Repr

/-- Modelled from the spec: `f2b::source_code_options` (header `f2b.h` is not
among the sources); the member names are those the accessors of
`MainWindowModel` use. -/
structure source_code_options where
  export_method : export_method_type
  bit_numbering : bit_numbering_type
  invert_bits : Bool
  include_line_spacing : Bool
  indent : indentation
  deriving DecidableEq, Repr

/-- One packed byte: bit `i` of the group (0 is the leftmost pixel) goes to
bit 7 - i of the byte when packing MSB-first and to bit i when packing
LSB-first. -/
def packByte (numbering : bit_numbering_type) (bit : Nat → Bool) : Nat :=
  ((List.range 8).map (fun i =>
    if bit i then
      match numbering with
      | .msb => 2 ^ (7 - i)
      | .lsb => 2 ^ i
    else 0)).sum

/-- Inversion of one packed byte: every bit of the byte is complemented. -/
def emitByte (invert : Bool) (b : Nat) : Nat :=
  if invert then 255 - b else b

/-- Number of bytes one row of a cell of the given width occupies. -/
def bytesPerRow (width : Nat) : Nat :=
  (width + 7) / 8

/-- Modelled from the spec: packing of one row of bits (section 4.3 step 2;
the generator is not among the sources).  The row is cut into byte-aligned
groups of eight pixels, the last one padded with zero bits; each group is
packed by the bit-order policy and then inverted when the flag is set. -/
def packRow (o : source_code_options) (width : Nat) (row : Nat → Bool) : List Nat :=
  (List.range (bytesPerRow width)).map (fun k =>
    emitByte o.invert_bits
      (packByte o.bit_numbering (fun i => decide (8 * k + i < width) && row (8 * k + i))))

/-- Row `y` of a glyph as a function of the column. -/
def Glyph.row (g : Glyph) (y : Nat) : Nat → Bool :=
  fun x => g.getPixel ⟨x, y⟩

/-- Bytes emitted for one glyph: one list of bytes per pixel row, followed,
when line spacing is included, by one all-zero row packed the same way. -/
def glyphBytes (o : source_code_options) (g : Glyph) : List (List Nat) :=
  (List.range g.height).map (fun y => packRow o g.width (g.row y))
    ++ (if o.include_line_spacing then [packRow o g.width (fun _ => false)] else [])

/-- Glyphs kept by the export filter, in face order. -/
def exportedGlyphs (o : source_code_options) (f : Face) : List Glyph :=
  match o.export_method with
  | .export_all => f.glyphs
  | .export_selected => f.glyphs.filter (fun g => g.exported)

/-- Modelled from the spec: the byte content of the generated source code
(section 4.3 steps 1 to 3; the generator is not among the sources): one
block per kept glyph, one list of bytes per row. -/
def generateBytes (f : Face) (o : source_code_options) : List (List (List Nat)) :=
  (exportedGlyphs o f).map (glyphBytes o)

/-- An 8 × 8 glyph in which only the top-left pixel is set. -/
def cornerGlyph : Glyph :=
  { width := 8
    height := 8
    pixels := true :: List.replicate 63 false
    exported := true }

/-- A 3 × 2 glyph that is not exported, with bitmap 101 / 010. -/
def smallGlyph : Glyph :=
  { width := 3
    height := 2
    pixels := [true, false, true, false, true, false]
    exported := false }

/-- A face with two 3 × 2 glyphs. -/
def smallFace : Face :=
  { name := "Fixed"
    pointSize := 6
    cellWidth := 3
    cellHeight := 2
    glyphs := [smallGlyph, { smallGlyph with exported := true }] }

/-- A face with the single 8 × 8 corner glyph. -/
def cornerFace : Face :=
  { name := "Corner"
    pointSize := 8
    cellWidth := 8
    cellHeight := 8
    glyphs := [cornerGlyph] }

/-- A change of two pixels inside a 3 × 2 cell. -/
def insideChange : BatchPixelChange :=
  { changes := [(⟨1, 0⟩, true), (⟨2, 1⟩, false)] }

/-- A change whose second coordinate lies right of a 3 × 2 cell. -/
def outsideChange : BatchPixelChange :=
  { changes := [(⟨1, 0⟩, true), (⟨3, 1⟩, true)] }

/-- Options of the scenario: export all, MSB first, no inversion, no line
spacing. -/
def plainOptions : source_code_options :=
  { export_method := .export_all
    bit_numbering := .msb
    invert_bits := false
    include_line_spacing := false
    indent := .tab }

/-! ## MainWindowModel -/

/-- Data members of `MainWindowModel`, for a string type `QString` given with
the linear order of its `operator<`.  `fontFaceViewModel_` (a possibly null
owning pointer) holds the face of the loaded document; the state of
`sourceCodeMutex_` is tracked by the event semantics below, and the settings
store is outside the model. -/
structure MainWindowModel (QString : Type) [LinearOrder QString] where
  uiState_ : UIState
  fontFaceViewModel_ : Option Face
  documentPath_ : Option QString
  documentTitle_ : QString
  fontArrayName_ : QString
  sourceCodeOptions_ : source_code_options
  shouldShowNonExportedGlyphs_ : Bool
  sourceCode_ : QString
  formats_ : QMap QString QString
  currentFormat_ : QString
  indentationStyles_ : List (indentation × QString)

variable {QString : Type} [LinearOrder QString]

/-- A call of a `const` member function in state-passing form: the value it
returns and the model afterwards. -/
def constCall {α : Type} (f : MainWindowModel QString → α) (m : MainWindowModel QString) :
    α × MainWindowModel QString :=
  (f m, m)

namespace MainWindowModel

/-- Accessor `uiState()`. -/
def uiState (m : MainWindowModel QString) : UIState := m.uiState_

/-- Accessor `shouldShowNonExportedGlyphs()`. -/
def shouldShowNonExportedGlyphs (m : MainWindowModel QString) : CheckState :=
  if m.shouldShowNonExportedGlyphs_ then .Checked else .Unchecked

/-- Accessor `exportAllEnabled()`: the CheckState of the conditional expression
is converted to the declared return type `bool`. -/
def exportAllEnabled (m : MainWindowModel QString) : Bool :=
  CheckState.toBool
    (if m.sourceCodeOptions_.export_method = .export_all then .Checked else .Unchecked)

/-- Accessor `invertBits()`. -/
def invertBits (m : MainWindowModel QString) : CheckState :=
  if m.sourceCodeOptions_.invert_bits then .Checked else .Unchecked

/-- Accessor `msbEnabled()`. -/
def msbEnabled (m : MainWindowModel QString) : CheckState :=
  if m.sourceCodeOptions_.bit_numbering = .msb then .Checked else .Unchecked

/-- Accessor `includeLineSpacing()`. -/
def includeLineSpacing (m : MainWindowModel QString) : CheckState :=
  if m.sourceCodeOptions_.include_line_spacing then .Checked else .Unchecked

/-- Accessor `outputFormats()`. -/
def outputFormats (m : MainWindowModel QString) : QMap QString QString := m.formats_

/-- Accessor `outputFormat()`: `formats_.value(currentFormat_, formats_.first())`.
The default argument `formats_.first()` is evaluated before the lookup, so the
call is undefined (`none`) on an empty catalog whatever the current format. -/
def outputFormat (m : MainWindowModel QString) : Option QString :=
  match m.formats_.first with
  | none => none
  | some defaultValue => some (m.formats_.value m.currentFormat_ defaultValue)

/-- Accessor `currentDocumentPath()`. -/
def currentDocumentPath (m : MainWindowModel QString) : Option QString := m.documentPath_

/-- Accessor `documentTitle()`. -/
def documentTitle (m : MainWindowModel QString) : QString := m.documentTitle_

/-- Primitive effects of the body of a setter: an assignment to a data member
or a call of a member function defined outside the header. -/
inductive Effect (QString : Type) where
  | assignFontArrayName (value : QString)
  | reloadSourceCode
  deriving DecidableEq, Repr

/-- Effects of `setFontArrayName(fontArrayName)`, in program order: when the
stored name differs, the assignment followed by the call of
`reloadSourceCode()`; nothing otherwise. -/
def setFontArrayNameEffects (m : MainWindowModel QString) (fontArrayName : QString) :
    List (Effect QString) :=
  if m.fontArrayName_ ≠ fontArrayName then
    [.assignFontArrayName fontArrayName, .reloadSourceCode]
  else
    []

/-- One effect run on the model; `reloadSourceCode` is the member function of
that name, defined outside the header. -/
def runEffect (reloadSourceCode : MainWindowModel QString → MainWindowModel QString)
    (m : MainWindowModel QString) : Effect QString → MainWindowModel QString
  | .assignFontArrayName value => { m with fontArrayName_ := value }
  | .reloadSourceCode => reloadSourceCode m

/-- Member function `setFontArrayName(fontArrayName)`. -/
def setFontArrayName (reloadSourceCode : MainWindowModel QString → MainWindowModel QString)
    (m : MainWindowModel QString) (fontArrayName : QString) : MainWindowModel QString :=
  (setFontArrayNameEffects m fontArrayName).foldl (runEffect reloadSourceCode) m

/-- Number of regeneration requests among a list of effects. -/
def reloadRequests (es : List (Effect QString)) : Nat :=
  es.count .reloadSourceCode

/-! ### The locked accessor -/

/-- Statements that occur in the body of `sourceCode()` and in its intended
form. -/
inductive Stmt where
  /-- Expression statement `std::scoped_lock { sourceCodeMutex_ };` which
  creates an unnamed temporary lock object. -/
  | temporaryLock
  /-- Declaration `std::scoped_lock guard { sourceCodeMutex_ };` of a named
  local lock object. -/
  | namedLock
  /-- Statement `return sourceCode_;` of a function returning `const QString&`. -/
  | returnReference
  /-- Statement `return sourceCode_;` of a function returning `QString` by value. -/
  | returnCopy
  deriving DecidableEq, Repr

/-- Observable events of one call. -/
inductive Event where
  | acquire
  | release
  /-- The cached text is read (copied out). -/
  | readText
  /-- Control returns to the caller. -/
  | returned
  deriving DecidableEq, Repr

/-- Events of a function body.  `guards` counts the named lock objects alive
in the scope.  A temporary is destroyed at the end of its full-expression, so
a temporary lock is released by the statement that acquired it; named locals
are destroyed when the scope is left, after the return value is initialised.
A returned reference is read by the caller after the call has returned. -/
def events : List Stmt → Nat → List Event
  | [], guards => List.replicate guards .release ++ [.returned]
  | .temporaryLock :: rest, guards => [.acquire, .release] ++ events rest guards
  | .namedLock :: rest, guards => .acquire :: events rest (guards + 1)
  | .returnReference :: _, guards =>
    List.replicate guards .release ++ [.returned, .readText]
  | .returnCopy :: _, guards =>
    .readText :: (List.replicate guards .release ++ [.returned])

/-- Body of `sourceCode()` as written in the header. -/
def sourceCodeBody : List Stmt := [.temporaryLock, .returnReference]

/-- Whether every read of the cached text in a trace happens while the mutex
is held; `held` is the number of acquisitions not yet released. -/
def readsUnderLock : List Event → Nat → Bool
  | [], _ => true
  | .acquire :: rest, held => readsUnderLock rest (held + 1)
  | .release :: rest, held => readsUnderLock rest (held - 1)
  | .readText :: rest, held => decide (0 < held) && readsUnderLock rest held
  | .returned :: rest, held => readsUnderLock rest held

/-- Body the accessor would have with a named guard and a result returned by
value. -/
def guardedBody : List Stmt := [.namedLock, .returnCopy]

/-- A model with a two-entry format catalog, used to instantiate the
statements below.  Its strings are ASCII, for which the order of `String`
and the comparison of `QString` by code unit agree. -/
def sample : MainWindowModel String :=
  { uiState_ := UIState.init
    fontFaceViewModel_ := none
    documentPath_ := none
    documentTitle_ := "New Document"
    fontArrayName_ := "font"
    sourceCodeOptions_ :=
      { export_method := .export_selected
        bit_numbering := .lsb
        invert_bits := false
        include_line_spacing := false
        indent := .tab }
    shouldShowNonExportedGlyphs_ := true
    sourceCode_ := ""
    formats_ := ⟨[("arduino", "Arduino"), ("c", "C/C++")], by
      simp [String.lt_iff_toList_lt]; decide⟩
    currentFormat_ := "python"
    indentationStyles_ := [(.tab, "Tab"), (.space 4, "4 spaces")] }

/-- A regeneration that publishes a new text and touches nothing else. -/
def sampleReload (m : MainWindowModel String) : MainWindowModel String :=
  { m with sourceCode_ := "const unsigned char " ++ m.fontArrayName_ ++ "[] = ..." }

end MainWindowModel

/-! ## Properties of the embedded header -/

section Helpers

theorem Bitset.test_isSome {n : Nat} (b : Bitset n) (i : Nat) (h : i < n) :
    (b.test i).isSome = true := by
  have hi : i < b.bits.length := by rw [b.size_eq]; exact h
  simp [Bitset.test, h, List.getElem?_eq_getElem hi]

theorem Bitset.set_isSome {n : Nat} (b : Bitset n) (i : Nat) (v : Bool) (h : i < n) :
    (b.set i v).isSome = true := by
  simp [Bitset.set, h]

theorem Bitset.test_set {n : Nat} (b b' : Bitset n) (i j : Nat) (v : Bool)
    (h : b.set i v = some b') :
    b'.test j = if i = j then some v else b.test j := by
  unfold Bitset.set at h
  split at h
  · rename_i hi
    have hb : b'.bits = b.bits.set i v := by
      have := Option.some.inj h
      rw [← this]
    have hlen : i < b.bits.length := by rw [b.size_eq]; exact hi
    unfold Bitset.test
    by_cases hij : i = j
    · subst hij
      simp [hi, hb, List.getElem?_set_self hlen]
    · simp [hij, hb, List.getElem?_set_ne hij]
  · cases h

theorem QMap.value_of_mem {K V : Type} [LinearOrder K] (m : QMap K V) (k : K) (v d : V)
    (h : (k, v) ∈ m.entries) : m.value k d = v := by
  obtain ⟨entries, sorted⟩ := m
  unfold QMap.value
  simp only at h ⊢
  induction entries with
  | nil => cases h
  | cons e rest ih =>
    rw [List.pairwise_cons] at sorted
    by_cases hk : e.1 = k
    · simp only [List.find?_cons, hk, decide_True]
      rcases List.mem_cons.mp h with h1 | h1
      · rw [← h1]
      · have := sorted.1 _ h1
        simp only [hk] at this
        exact absurd this (lt_irrefl k)
    · simp only [List.find?_cons, hk, decide_False]
      rcases List.mem_cons.mp h with h1 | h1
      · rw [← h1] at hk
        exact absurd rfl hk
      · exact ih sorted.2 h1

theorem QMap.value_of_not_mem {K V : Type} [LinearOrder K] (m : QMap K V) (k : K) (d : V)
    (h : ∀ v, (k, v) ∉ m.entries) : m.value k d = d := by
  unfold QMap.value
  have : m.entries.find? (fun e => decide (e.1 = k)) = none := by
    rw [List.find?_eq_none]
    intro e he hk
    have hk' : e.1 = k := by simpa using hk
    apply h e.2
    rw [← hk']
    exact he
  rw [this]

theorem QMap.first_least {K V : Type} [LinearOrder K] (m : QMap K V) (v : V)
    (h : m.first = some v) :
    ∃ k, m.entries.head? = some (k, v) ∧ (k, v) ∈ m.entries ∧ ∀ e ∈ m.entries, k ≤ e.1 := by
  obtain ⟨entries, sorted⟩ := m
  unfold QMap.first at h
  simp only at h ⊢
  cases entries with
  | nil => simp at h
  | cons e rest =>
    rw [List.pairwise_cons] at sorted
    simp only [List.head?_cons, Option.map_some', Option.some.injEq] at h
    refine ⟨e.1, ?_, ?_, ?_⟩
    · simp [← h]
    · simp [← h]
    · intro e' he'
      rcases List.mem_cons.mp he' with h1 | h1
      · rw [h1]
      · exact le_of_lt (sorted.1 _ h1)

end Helpers

section Header

open MainWindowModel

/-- C8: the action-flag set of UIState has exactly 10 flags.  The ten named
actions are numbered 0..9 in declaration order and are pairwise distinct,
ActionFirst equals ActionAddGlyph equals 0, ActionCount equals 10, every
named action is a valid index into the bitset `actions` (reading and writing
the flag succeed), every flag of the bitset is addressed by a named action,
and writing the flag of one named action sets that flag and leaves the flag
of every other named action as it was. -/
theorem uiState_actions_fixed_size :
    InterfaceAction.named.map InterfaceAction.toNat = [0, 1, 2, 3, 4, 5, 6, 7, 8, 9]
    ∧ InterfaceAction.named.Nodup
    ∧ InterfaceAction.ActionFirst.toNat = InterfaceAction.ActionAddGlyph.toNat
    ∧ InterfaceAction.ActionAddGlyph.toNat = 0
    ∧ InterfaceAction.ActionCount.toNat = 10
    ∧ (∀ s : UIState, s.actions.size = 10 ∧ s.actions.bits.length = 10)
    ∧ (∀ a ∈ InterfaceAction.named, a.toNat < InterfaceAction.ActionCount.toNat)
    ∧ (∀ a ∈ InterfaceAction.named, ∀ b ∈ InterfaceAction.named,
        a ≠ b → a.toNat ≠ b.toNat)
    ∧ (∀ i, i < InterfaceAction.ActionCount.toNat →
        ∃ a ∈ InterfaceAction.named, a.toNat = i)
    ∧ (∀ (s : UIState), ∀ a ∈ InterfaceAction.named,
        (s.actions.test a.toNat).isSome = true
        ∧ ∀ v, (s.actions.set a.toNat v).isSome = true)
    ∧ (∀ (s : UIState) (v : Bool) (flags : Bitset InterfaceAction.ActionCount.toNat),
        ∀ a ∈ InterfaceAction.named, s.actions.set a.toNat v = some flags →
          flags.test a.toNat = some v
          ∧ ∀ b ∈ InterfaceAction.named, a ≠ b →
              flags.test b.toNat = s.actions.test b.toNat) := by
  have hlt : ∀ a ∈ InterfaceAction.named, a.toNat < InterfaceAction.ActionCount.toNat := by
    decide
  have hinj : ∀ a ∈ InterfaceAction.named, ∀ b ∈ InterfaceAction.named,
      a ≠ b → a.toNat ≠ b.toNat := by decide
  refine ⟨by decide, by decide, by decide, by decide, by decide, ?_, hlt, hinj, ?_, ?_, ?_⟩
  · intro s
    have h10 : InterfaceAction.ActionCount.toNat = 10 := by decide
    exact ⟨h10, s.actions.size_eq.trans h10⟩
  · intro i hi
    have h10 : InterfaceAction.ActionCount.toNat = 10 := by decide
    rw [h10] at hi
    interval_cases i <;> decide
  · intro s a ha
    exact ⟨Bitset.test_isSome _ _ (hlt a ha), fun v => Bitset.set_isSome _ _ v (hlt a ha)⟩
  · intro s v flags a ha hset
    refine ⟨?_, ?_⟩
    · rw [Bitset.test_set _ _ _ _ _ hset]; simp
    · intro b hb hab
      rw [Bitset.test_set _ _ _ _ _ hset]
      simp [hinj a ha b hb hab]

/-- C10: the option accessors report exactly the stored options.
exportAllEnabled() is the bool conversion of Checked (2) or Unchecked (0) and
is true iff export_method is export_all; msbEnabled() is Checked iff
bit_numbering is msb; invertBits(), includeLineSpacing() and
shouldShowNonExportedGlyphs() are Checked iff the stored flag is true; each
CheckState accessor is Unchecked otherwise, never PartiallyChecked, and no
accessor changes the model. -/
theorem option_accessors_report_options (m : MainWindowModel QString) :
    CheckState.Checked.toNat = 2 ∧ CheckState.Unchecked.toNat = 0
    ∧ (m.exportAllEnabled = true ↔ m.sourceCodeOptions_.export_method = .export_all)
    ∧ (m.msbEnabled = .Checked ↔ m.sourceCodeOptions_.bit_numbering = .msb)
    ∧ (m.invertBits = .Checked ↔ m.sourceCodeOptions_.invert_bits = true)
    ∧ (m.includeLineSpacing = .Checked ↔ m.sourceCodeOptions_.include_line_spacing = true)
    ∧ (m.shouldShowNonExportedGlyphs = .Checked ↔ m.shouldShowNonExportedGlyphs_ = true)
    ∧ (m.msbEnabled = .Unchecked ↔ ¬ m.sourceCodeOptions_.bit_numbering = .msb)
    ∧ (m.invertBits = .Unchecked ↔ ¬ m.sourceCodeOptions_.invert_bits = true)
    ∧ (m.includeLineSpacing = .Unchecked ↔ ¬ m.sourceCodeOptions_.include_line_spacing = true)
    ∧ (m.shouldShowNonExportedGlyphs = .Unchecked ↔ ¬ m.shouldShowNonExportedGlyphs_ = true)
    ∧ m.msbEnabled ≠ .PartiallyChecked ∧ m.invertBits ≠ .PartiallyChecked
    ∧ m.includeLineSpacing ≠ .PartiallyChecked
    ∧ m.shouldShowNonExportedGlyphs ≠ .PartiallyChecked
    ∧ (constCall exportAllEnabled m).2 = m ∧ (constCall msbEnabled m).2 = m
    ∧ (constCall invertBits m).2 = m ∧ (constCall includeLineSpacing m).2 = m
    ∧ (constCall shouldShowNonExportedGlyphs m).2 = m := by
  refine ⟨rfl, rfl, ?_, ?_, ?_, ?_, ?_, ?_, ?_, ?_, ?_, ?_, ?_, ?_, ?_, rfl, rfl, rfl, rfl, rfl⟩
  · unfold exportAllEnabled
    by_cases h : m.sourceCodeOptions_.export_method = .export_all <;>
      simp [h, CheckState.toBool, CheckState.toNat]
  all_goals first
    | (unfold msbEnabled
       by_cases h : m.sourceCodeOptions_.bit_numbering = .msb <;> simp [h])
    | (unfold invertBits
       cases m.sourceCodeOptions_.invert_bits <;> simp)
    | (unfold includeLineSpacing
       cases m.sourceCodeOptions_.include_line_spacing <;> simp)
    | (unfold shouldShowNonExportedGlyphs
       cases m.shouldShowNonExportedGlyphs_ <;> simp)

/-- C6: on a non-empty format catalog outputFormat() returns a label: the
label mapped to currentFormat_ when currentFormat_ is an identifier of the
catalog, otherwise the label of the first entry, whose identifier is the
least of the catalog in the key order of the catalog (whatever linear order
the string type compares by); in both cases the label occurs in the catalog,
and the model (catalog and currentFormat_ included) is unchanged by the
call. -/
theorem outputFormat_label_or_first (m : MainWindowModel QString)
    (hne : m.formats_.isEmpty = false) :
    ∃ label, constCall outputFormat m = (some label, m)
      ∧ (∀ l, (m.currentFormat_, l) ∈ m.formats_.entries → label = l)
      ∧ ((∀ l, (m.currentFormat_, l) ∉ m.formats_.entries) →
          ∃ k, m.formats_.entries.head? = some (k, label)
            ∧ ∀ e ∈ m.formats_.entries, k ≤ e.1)
      ∧ (∃ k, (k, label) ∈ m.formats_.entries) := by
  have hfirst : ∃ d, m.formats_.first = some d := by
    unfold QMap.isEmpty at hne
    unfold QMap.first
    cases hent : m.formats_.entries with
    | nil => rw [hent] at hne; simp at hne
    | cons e rest => exact ⟨e.2, by simp⟩
  obtain ⟨d, hd⟩ := hfirst
  obtain ⟨k0, hhead, hmem0, hleast⟩ := QMap.first_least _ _ hd
  refine ⟨m.formats_.value m.currentFormat_ d, ?_, ?_, ?_, ?_⟩
  · simp [constCall, outputFormat, hd]
  · intro l hl
    exact QMap.value_of_mem _ _ _ _ hl
  · intro hnot
    rw [QMap.value_of_not_mem _ _ _ hnot]
    exact ⟨k0, hhead, hleast⟩
  · by_cases hex : ∃ l, (m.currentFormat_, l) ∈ m.formats_.entries
    · obtain ⟨l, hl⟩ := hex
      exact ⟨m.currentFormat_, by rw [QMap.value_of_mem _ _ _ _ hl]; exact hl⟩
    · have hnot : ∀ l, (m.currentFormat_, l) ∉ m.formats_.entries := by
        intro l hl
        exact hex ⟨l, hl⟩
      rw [QMap.value_of_not_mem _ _ _ hnot]
      exact ⟨k0, hmem0⟩

/-- Instance of C6 at the sample model: catalog arduino, c and the unknown
current identifier python. -/
theorem outputFormat_label_or_first_witness :
    sample.formats_.isEmpty = false
    ∧ ∃ label, constCall outputFormat sample = (some label, sample)
      ∧ (∀ l, (sample.currentFormat_, l) ∈ sample.formats_.entries → label = l)
      ∧ ((∀ l, (sample.currentFormat_, l) ∉ sample.formats_.entries) →
          ∃ k, sample.formats_.entries.head? = some (k, label)
            ∧ ∀ e ∈ sample.formats_.entries, k ≤ e.1)
      ∧ (∃ k, (k, label) ∈ sample.formats_.entries) :=
  ⟨rfl, outputFormat_label_or_first sample rfl⟩

/-- C7: when the new name differs from the stored one, setFontArrayName(n)
performs exactly two effects in this order: the assignment of n to the array
name, then one call of reloadSourceCode().  The model handed to
reloadSourceCode() carries the new name and agrees with the model before the
call on every other member, and the result of the setter is the result of
that one call. -/
theorem setFontArrayName_stores_then_reloads
    (reloadSourceCode : MainWindowModel QString → MainWindowModel QString)
    (m : MainWindowModel QString) (n : QString) (hne : m.fontArrayName_ ≠ n) :
    setFontArrayNameEffects m n = [.assignFontArrayName n, .reloadSourceCode]
    ∧ reloadRequests (setFontArrayNameEffects m n) = 1
    ∧ setFontArrayName reloadSourceCode m n
        = reloadSourceCode (runEffect reloadSourceCode m (.assignFontArrayName n))
    ∧ (runEffect reloadSourceCode m (.assignFontArrayName n)).fontArrayName_ = n
    ∧ (∀ r : MainWindowModel QString → MainWindowModel QString,
        (∀ s, (r s).fontArrayName_ = s.fontArrayName_) →
          (setFontArrayName r m n).fontArrayName_ = n)
    ∧ (let m' := runEffect reloadSourceCode m (.assignFontArrayName n)
       m'.uiState_ = m.uiState_
       ∧ m'.fontFaceViewModel_ = m.fontFaceViewModel_
       ∧ m'.documentPath_ = m.documentPath_
       ∧ m'.documentTitle_ = m.documentTitle_
       ∧ m'.sourceCodeOptions_ = m.sourceCodeOptions_
       ∧ m'.shouldShowNonExportedGlyphs_ = m.shouldShowNonExportedGlyphs_
       ∧ m'.sourceCode_ = m.sourceCode_
       ∧ m'.formats_ = m.formats_
       ∧ m'.currentFormat_ = m.currentFormat_
       ∧ m'.indentationStyles_ = m.indentationStyles_) := by
  have heff : setFontArrayNameEffects m n = [.assignFontArrayName n, .reloadSourceCode] := by
    unfold setFontArrayNameEffects
    rw [if_pos hne]
  refine ⟨heff, ?_, ?_, rfl, ?_, ?_⟩
  · rw [heff]; simp [reloadRequests]
  · unfold setFontArrayName
    rw [heff]
    rfl
  · intro r hr
    unfold setFontArrayName
    rw [heff]
    simp only [List.foldl_cons, List.foldl_nil, runEffect]
    rw [hr]
  · exact ⟨rfl, rfl, rfl, rfl, rfl, rfl, rfl, rfl, rfl, rfl⟩

/-- Instance of C7: renaming the array of the sample model from font to
glyphs. -/
theorem setFontArrayName_stores_then_reloads_witness :
    sample.fontArrayName_ ≠ "glyphs"
    ∧ reloadRequests (setFontArrayNameEffects sample "glyphs") = 1
    ∧ (setFontArrayName sampleReload sample "glyphs").fontArrayName_ = "glyphs" :=
  ⟨by decide,
   (setFontArrayName_stores_then_reloads sampleReload sample "glyphs" (by decide)).2.1,
   (setFontArrayName_stores_then_reloads sampleReload sample "glyphs" (by decide)).2.2.2.2.1
      sampleReload (fun _ => rfl)⟩

/-- C9: setFontArrayName is idempotent.  When the stored name already equals
n the setter performs no effect: no member is written, no regeneration is
requested and the model is returned as it is.  Provided reloadSourceCode()
does not itself write the array name, two calls in a row with the same name
leave the model one call leaves, and request at most one regeneration in
total. -/
theorem setFontArrayName_idempotent
    (reloadSourceCode : MainWindowModel QString → MainWindowModel QString)
    (hframe : ∀ s, (reloadSourceCode s).fontArrayName_ = s.fontArrayName_)
    (m : MainWindowModel QString) (n : QString) :
    (m.fontArrayName_ = n →
        setFontArrayNameEffects m n = []
        ∧ reloadRequests (setFontArrayNameEffects m n) = 0
        ∧ setFontArrayName reloadSourceCode m n = m)
    ∧ setFontArrayName reloadSourceCode (setFontArrayName reloadSourceCode m n) n
        = setFontArrayName reloadSourceCode m n
    ∧ reloadRequests (setFontArrayNameEffects m n)
        + reloadRequests (setFontArrayNameEffects (setFontArrayName reloadSourceCode m n) n)
        ≤ 1 := by
  have hsame : ∀ s : MainWindowModel QString, s.fontArrayName_ = n →
      setFontArrayNameEffects s n = [] := by
    intro s hs
    unfold setFontArrayNameEffects
    rw [if_neg (not_not.mpr hs)]
  have hafter : (setFontArrayName reloadSourceCode m n).fontArrayName_ = n := by
    by_cases h : m.fontArrayName_ = n
    · unfold setFontArrayName
      rw [hsame m h]
      exact h
    · unfold setFontArrayName setFontArrayNameEffects
      rw [if_pos h]
      simp only [List.foldl_cons, List.foldl_nil, runEffect]
      rw [hframe]
  refine ⟨?_, ?_, ?_⟩
  · intro h
    refine ⟨hsame m h, ?_, ?_⟩
    · rw [hsame m h]; rfl
    · unfold setFontArrayName
      rw [hsame m h]
      rfl
  · have hnoop : ∀ s : MainWindowModel QString, s.fontArrayName_ = n →
        setFontArrayName reloadSourceCode s n = s := by
      intro s hs
      unfold setFontArrayName
      rw [hsame s hs]
      rfl
    exact hnoop _ hafter
  · rw [hsame _ hafter]
    by_cases h : m.fontArrayName_ = n
    · rw [hsame m h]; simp [reloadRequests]
    · unfold setFontArrayNameEffects
      rw [if_pos h]
      simp [reloadRequests]

/-- Instance of C9 with a regeneration that only replaces the cached text. -/
theorem setFontArrayName_idempotent_witness :
    (∀ s, (sampleReload s).fontArrayName_ = s.fontArrayName_)
    ∧ setFontArrayName sampleReload (setFontArrayName sampleReload sample "glyphs") "glyphs"
        = setFontArrayName sampleReload sample "glyphs"
    ∧ setFontArrayName sampleReload sample "font" = sample :=
  ⟨fun _ => rfl,
   (setFontArrayName_idempotent sampleReload (fun _ => rfl) sample "glyphs").2.1,
   ((setFontArrayName_idempotent sampleReload (fun _ => rfl) sample "font").1 rfl).2.2⟩

/-- C5 (the code departs from the claim): in the body of sourceCode() the
lock object is an unnamed temporary, so the mutex is released by the very
statement that acquired it; the function then returns a reference, and the
cached text is read by the caller after the return, while the mutex is not
held.  With a named guard and a result returned by value the read would
happen under the lock. -/
theorem sourceCode_reads_after_release :
    events sourceCodeBody 0 = [.acquire, .release, .returned, .readText]
    ∧ readsUnderLock (events sourceCodeBody 0) 0 = false
    ∧ events guardedBody 0 = [.acquire, .readText, .release, .returned]
    ∧ readsUnderLock (events guardedBody 0) 0 = true := by
  refine ⟨rfl, rfl, rfl, rfl⟩

end Header

/-! ## Properties of the glyph operations -/

section Pixels

theorem Glyph.inBounds_iff (g : Glyph) (p : Point) :
    g.inBounds p = true ↔ 0 ≤ p.x ∧ p.x < g.width ∧ 0 ≤ p.y ∧ p.y < g.height := by
  simp [Glyph.inBounds, and_assoc]

theorem Glyph.offset_lt (g : Glyph) (p : Point) (hwf : g.WellFormed)
    (hp : g.inBounds p = true) : g.offset p < g.pixels.length := by
  rw [Glyph.inBounds_iff] at hp
  obtain ⟨hx0, hx, hy0, hy⟩ := hp
  have hx' : p.x.toNat < g.width := by omega
  have hy' : p.y.toNat < g.height := by omega
  unfold Glyph.offset
  rw [hwf]
  calc p.y.toNat * g.width + p.x.toNat
      < p.y.toNat * g.width + g.width := by omega
    _ = (p.y.toNat + 1) * g.width := by ring
    _ ≤ g.height * g.width := Nat.mul_le_mul_right _ hy'
    _ = g.width * g.height := Nat.mul_comm _ _

theorem Glyph.offset_injective (g : Glyph) (p q : Point)
    (hp : g.inBounds p = true) (hq : g.inBounds q = true)
    (h : g.offset p = g.offset q) : p = q := by
  rw [Glyph.inBounds_iff] at hp hq
  obtain ⟨hpx0, hpx, hpy0, hpy⟩ := hp
  obtain ⟨hqx0, hqx, hqy0, hqy⟩ := hq
  have hpx' : p.x.toNat < g.width := by omega
  have hqx' : q.x.toNat < g.width := by omega
  unfold Glyph.offset at h
  have hmod := congrArg (fun n => n % g.width) h
  have hdiv := congrArg (fun n => n / g.width) h
  have hw : 0 < g.width := by omega
  simp only [Nat.mul_add_mod_of_lt, hpx', hqx', Nat.add_comm (_ * g.width),
    Nat.add_mul_mod_self_right, Nat.mod_eq_of_lt, Nat.add_mul_div_right _ _ hw,
    Nat.div_eq_of_lt, Nat.zero_add] at hmod hdiv
  cases p; cases q
  simp only [Point.mk.injEq] at *
  omega

theorem Glyph.inBounds_setPixel (g : Glyph) (p q : Point) (b : Bool) :
    (g.setPixel p b).inBounds q = g.inBounds q := rfl

theorem Glyph.wellFormed_setPixel (g : Glyph) (p : Point) (b : Bool) (hwf : g.WellFormed) :
    (g.setPixel p b).WellFormed := by
  unfold Glyph.WellFormed Glyph.setPixel
  simp only [List.length_set]
  exact hwf

theorem Glyph.getPixel_setPixel_same (g : Glyph) (p : Point) (b : Bool) (hwf : g.WellFormed)
    (hp : g.inBounds p = true) : (g.setPixel p b).getPixel p = b := by
  have hlt := g.offset_lt p hwf hp
  have hoff : (g.setPixel p b).offset p = g.offset p := rfl
  unfold Glyph.getPixel
  rw [Glyph.inBounds_setPixel, hp, hoff]
  simp only [Glyph.setPixel, Bool.true_and, List.getD_eq_getElem?_getD]
  rw [List.getElem?_set_self hlt]
  rfl

theorem Glyph.getPixel_setPixel_other (g : Glyph) (p q : Point) (b : Bool)
    (hp : g.inBounds p = true) (hne : q ≠ p) :
    (g.setPixel p b).getPixel q = g.getPixel q := by
  unfold Glyph.getPixel
  rw [Glyph.inBounds_setPixel]
  by_cases hq : g.inBounds q = true
  · have hoff : g.offset p ≠ g.offset q := fun h =>
      hne (g.offset_injective p q hp hq h).symm
    have hq' : (g.setPixel p b).offset q = g.offset q := rfl
    rw [hq']
    simp only [Glyph.setPixel, List.getD_eq_getElem?_getD]
    rw [List.getElem?_set_ne hoff]
  · simp only [Bool.not_eq_true] at hq
    rw [hq]
    rfl

/-- Effect of a validated list of entries applied one after another. -/
theorem foldl_applyChange (t : ChangeType) (cs : List (Point × Bool)) (g : Glyph)
    (hwf : g.WellFormed) (hmap : (cs.map Prod.fst).Nodup)
    (hin : ∀ p ∈ cs.map Prod.fst, g.inBounds p = true) :
    (cs.foldl (applyChange t) g).width = g.width
    ∧ (cs.foldl (applyChange t) g).height = g.height
    ∧ (cs.foldl (applyChange t) g).exported = g.exported
    ∧ (cs.foldl (applyChange t) g).WellFormed
    ∧ (∀ e ∈ cs, (cs.foldl (applyChange t) g).getPixel e.1 = t.result (g.getPixel e.1) e.2)
    ∧ (∀ q, q ∉ cs.map Prod.fst → (cs.foldl (applyChange t) g).getPixel q = g.getPixel q) := by
  induction cs generalizing g with
  | nil => exact ⟨rfl, rfl, rfl, hwf, fun e he => (by cases he), fun q _ => rfl⟩
  | cons c rest ih =>
    rw [List.map_cons, List.nodup_cons] at hmap
    have hc : g.inBounds c.1 = true := hin c.1 (by simp)
    have hwf1 : (applyChange t g c).WellFormed := Glyph.wellFormed_setPixel _ _ _ hwf
    have hin1 : ∀ p ∈ rest.map Prod.fst, (applyChange t g c).inBounds p = true := by
      intro p hp
      exact hin p (by rw [List.map_cons]; exact List.mem_cons_of_mem _ hp)
    obtain ⟨hw, hh, hex, hwf', hlisted, hother⟩ := ih (applyChange t g c) hwf1 hmap.2 hin1
    rw [List.foldl_cons]
    refine ⟨hw, hh, hex, hwf', ?_, ?_⟩
    · intro e he
      rcases List.mem_cons.mp he with h1 | h1
      · rw [h1, hother c.1 hmap.1]
        exact Glyph.getPixel_setPixel_same _ _ _ hwf hc
      · rw [hlisted e h1]
        have hne : e.1 ≠ c.1 := by
          intro heq
          apply hmap.1
          rw [← heq]
          exact List.mem_map_of_mem _ h1
        unfold applyChange
        rw [Glyph.getPixel_setPixel_other _ _ _ _ hc hne]
    · intro q hq
      rw [List.map_cons, List.mem_cons, not_or] at hq
      rw [hother q hq.2]
      exact Glyph.getPixel_setPixel_other _ _ _ _ hc hq.1

end Pixels

section GlyphEditing

/-- C1: when at least one coordinate of the change lies outside the cell of
the target glyph, modifyGlyph fails with CoordinateOutOfRange and the face,
hence the bitmap of the glyph, is exactly what it was before the call: no
coordinate of the change has been applied. -/
theorem modifyGlyph_out_of_range_unchanged (f : Face) (index : Nat) (g : Glyph)
    (change : BatchPixelChange) (changeType : ChangeType)
    (hg : f.glyphs[index]? = some g)
    (hout : ∃ p ∈ change.coordinates, g.inBounds p = false) :
    modifyGlyph f index change changeType = (.error .CoordinateOutOfRange, f)
    ∧ (modifyGlyph f index change changeType).2.glyphs[index]? = some g
    ∧ ∀ g', (modifyGlyph f index change changeType).2.glyphs[index]? = some g' →
        g'.pixels = g.pixels := by
  have hall : change.coordinates.all g.inBounds = false := by
    obtain ⟨p, hp, hpout⟩ := hout
    rw [Bool.eq_false_iff]
    intro hall
    rw [List.all_eq_true] at hall
    rw [hall p hp] at hpout
    cases hpout
  have hcall : modifyGlyph f index change changeType = (.error .CoordinateOutOfRange, f) := by
    simp [modifyGlyph, BatchPixelChange.apply, hg, hall]
  refine ⟨hcall, ?_, ?_⟩
  · rw [hcall]; exact hg
  · intro g' hg'
    rw [hcall] at hg'
    rw [hg] at hg'
    rw [← Option.some.inj hg']

/-- Instance of C1: a change with the coordinate (3, 1) on a glyph of width 3. -/
theorem modifyGlyph_out_of_range_unchanged_witness :
    modifyGlyph smallFace 0 outsideChange .Set = (.error .CoordinateOutOfRange, smallFace)
    ∧ (modifyGlyph smallFace 0 outsideChange .Set).2.glyphs[0]? = some smallGlyph :=
  ⟨(modifyGlyph_out_of_range_unchanged smallFace 0 smallGlyph outsideChange .Set rfl
      ⟨⟨3, 1⟩, by decide, by decide⟩).1,
   (modifyGlyph_out_of_range_unchanged smallFace 0 smallGlyph outsideChange .Set rfl
      ⟨⟨3, 1⟩, by decide, by decide⟩).2.1⟩

/-- C2: when every coordinate of the change lies inside the cell of the target
glyph, modifyGlyph succeeds and replaces the glyph by one of the same
dimensions (and exported flag) in which every listed coordinate holds the
result defined by the kind (Set 1, Clear 0, Toggle the complement of the
original bit, PaintStroke the carried bit) and every coordinate that is not
listed holds the original bit; the other glyphs of the face are untouched. -/
theorem modifyGlyph_in_range_applies (f : Face) (index : Nat) (g : Glyph)
    (change : BatchPixelChange) (changeType : ChangeType)
    (hg : f.glyphs[index]? = some g) (hwf : g.WellFormed) (hmap : change.IsMapping)
    (hin : ∀ p ∈ change.coordinates, g.inBounds p = true) :
    ∃ g', modifyGlyph f index change changeType
            = (.ok (), { f with glyphs := f.glyphs.set index g' })
      ∧ (modifyGlyph f index change changeType).2.glyphs[index]? = some g'
      ∧ (∀ j, j ≠ index →
          (modifyGlyph f index change changeType).2.glyphs[j]? = f.glyphs[j]?)
      ∧ g'.width = g.width ∧ g'.height = g.height ∧ g'.WellFormed
      ∧ g'.exported = g.exported
      ∧ (∀ e ∈ change.changes,
          g'.getPixel e.1 = match changeType with
            | .Set => true
            | .Clear => false
            | .Toggle => !(g.getPixel e.1)
            | .PaintStroke => e.2)
      ∧ (∀ q, q ∉ change.coordinates → g'.getPixel q = g.getPixel q) := by
  obtain ⟨hw, hh, hex, hwf', hlisted, hother⟩ :=
    foldl_applyChange changeType change.changes g hwf hmap hin
  have hall : change.coordinates.all g.inBounds = true := by
    rw [List.all_eq_true]
    exact hin
  have hcall : ∀ g', g' = change.changes.foldl (applyChange changeType) g →
      modifyGlyph f index change changeType
        = (.ok (), { f with glyphs := f.glyphs.set index g' }) := by
    intro g' hg'
    simp [modifyGlyph, BatchPixelChange.apply, hg, hall, hg']
  have hcall := hcall _ rfl
  have hlen : index < f.glyphs.length := by
    rcases Nat.lt_or_ge index f.glyphs.length with h | h
    · exact h
    · rw [List.getElem?_eq_none h] at hg
      cases hg
  refine ⟨_, hcall, ?_, ?_, hw, hh, hwf', hex, ?_, hother⟩
  · rw [hcall]
    exact List.getElem?_set_self hlen
  · intro j hj
    rw [hcall]
    exact List.getElem?_set_ne (Ne.symm hj)
  · intro e he
    rw [hlisted e he]
    cases changeType <;> rfl

/-- Instance of C2: two pixels of the first glyph of the small face painted. -/
theorem modifyGlyph_in_range_applies_witness :
    ∃ g', modifyGlyph smallFace 0 insideChange .PaintStroke
            = (.ok (), { smallFace with glyphs := smallFace.glyphs.set 0 g' })
      ∧ g'.getPixel ⟨1, 0⟩ = true ∧ g'.getPixel ⟨2, 1⟩ = false
      ∧ g'.getPixel ⟨0, 0⟩ = smallGlyph.getPixel ⟨0, 0⟩ := by
  obtain ⟨g', hcall, _, _, _, _, _, _, hlisted, hother⟩ :=
    modifyGlyph_in_range_applies smallFace 0 smallGlyph insideChange .PaintStroke rfl
      (by decide) (by decide) (by decide)
  exact ⟨g', hcall, hlisted (⟨1, 0⟩, true) (by decide), hlisted (⟨2, 1⟩, false) (by decide),
    hother ⟨0, 0⟩ (by decide)⟩

/-- C3: for a glyph index in range resetGlyph succeeds; afterwards glyph i has
the same width and height, a bitmap of width × height bits that are all 0,
and the exported flag it had before; the number of glyphs, every other glyph
and the face metadata are unchanged. -/
theorem resetGlyph_clears_bitmap (f : Face) (i : Nat) (hi : i < f.glyphs.length) :
    ∃ g g', f.glyphs[i]? = some g
      ∧ (resetGlyph f i).1 = .ok ()
      ∧ (resetGlyph f i).2.glyphs[i]? = some g'
      ∧ g'.width = g.width ∧ g'.height = g.height
      ∧ g'.WellFormed
      ∧ (∀ b ∈ g'.pixels, b = false)
      ∧ (∀ p, g'.getPixel p = false)
      ∧ g'.exported = g.exported
      ∧ (resetGlyph f i).2.glyphs.length = f.glyphs.length
      ∧ (∀ j, j ≠ i → (resetGlyph f i).2.glyphs[j]? = f.glyphs[j]?)
      ∧ (resetGlyph f i).2.name = f.name
      ∧ (resetGlyph f i).2.pointSize = f.pointSize
      ∧ (resetGlyph f i).2.cellWidth = f.cellWidth
      ∧ (resetGlyph f i).2.cellHeight = f.cellHeight := by
  have hg : f.glyphs[i]? = some f.glyphs[i] := List.getElem?_eq_getElem hi
  have hcall : ∀ g' : Glyph,
      g' = Glyph.mk f.glyphs[i].width f.glyphs[i].height
            (List.replicate (f.glyphs[i].width * f.glyphs[i].height) false)
            f.glyphs[i].exported →
      resetGlyph f i = (.ok (), { f with glyphs := f.glyphs.set i g' }) := by
    intro g' hg'
    simp [resetGlyph, hg, hg']
  have hcall := hcall _ rfl
  refine ⟨f.glyphs[i], Glyph.mk f.glyphs[i].width f.glyphs[i].height
            (List.replicate (f.glyphs[i].width * f.glyphs[i].height) false)
            f.glyphs[i].exported,
    hg, by rw [hcall], ?_, rfl, rfl, ?_, ?_, ?_, rfl, ?_, ?_, ?_, ?_, ?_, ?_⟩
  · rw [hcall]
    exact List.getElem?_set_self hi
  · simp [Glyph.WellFormed]
  · intro b hb
    exact (List.mem_replicate.mp hb).2
  · intro p
    unfold Glyph.getPixel
    simp only [List.getD_eq_getElem?_getD, List.getElem?_replicate]
    split <;> simp
  · rw [hcall]
    simp
  · intro j hj
    rw [hcall]
    exact List.getElem?_set_ne (Ne.symm hj)
  all_goals rw [hcall]

/-- Instance of C3: the second glyph of the small face is reset. -/
theorem resetGlyph_clears_bitmap_witness :
    1 < smallFace.glyphs.length
    ∧ ∃ g g', smallFace.glyphs[1]? = some g
      ∧ (resetGlyph smallFace 1).1 = .ok ()
      ∧ (resetGlyph smallFace 1).2.glyphs[1]? = some g'
      ∧ g'.width = g.width ∧ g'.height = g.height
      ∧ g'.WellFormed
      ∧ (∀ b ∈ g'.pixels, b = false)
      ∧ (∀ p, g'.getPixel p = false)
      ∧ g'.exported = g.exported
      ∧ (resetGlyph smallFace 1).2.glyphs.length = smallFace.glyphs.length
      ∧ (∀ j, j ≠ 1 → (resetGlyph smallFace 1).2.glyphs[j]? = smallFace.glyphs[j]?)
      ∧ (resetGlyph smallFace 1).2.name = smallFace.name
      ∧ (resetGlyph smallFace 1).2.pointSize = smallFace.pointSize
      ∧ (resetGlyph smallFace 1).2.cellWidth = smallFace.cellWidth
      ∧ (resetGlyph smallFace 1).2.cellHeight = smallFace.cellHeight :=
  ⟨by decide, resetGlyph_clears_bitmap smallFace 1 (by decide)⟩

end GlyphEditing

/-! ## Properties of the packed bytes -/

section Packing

theorem packByte_le (numbering : bit_numbering_type) (bit : Nat → Bool) :
    packByte numbering bit ≤ 255 := by
  unfold packByte
  have hterm : ∀ i ∈ List.range 8,
      (if bit i then
          match numbering with
          | .msb => 2 ^ (7 - i)
          | .lsb => 2 ^ i
        else 0)
      ≤ (match numbering with
          | .msb => 2 ^ (7 - i)
          | .lsb => 2 ^ i) := by
    intro i _
    split
    · exact le_refl _
    · exact Nat.zero_le _
  refine le_trans (List.sum_le_sum hterm) ?_
  cases numbering <;> decide

theorem emitByte_not (invert : Bool) (b : Nat) (hb : b ≤ 255) :
    emitByte (!invert) b = 255 - emitByte invert b := by
  cases invert
  · simp [emitByte]
  · simp only [emitByte, Bool.not_true, if_true]
    simp only [Bool.false_eq_true, if_false]
    omega

theorem emitByte_le (invert : Bool) (b : Nat) (hb : b ≤ 255) : emitByte invert b ≤ 255 := by
  unfold emitByte
  split <;> omega

theorem packRow_le (o : source_code_options) (width : Nat) (row : Nat → Bool) :
    ∀ b ∈ packRow o width row, b ≤ 255 := by
  intro b hb
  unfold packRow at hb
  obtain ⟨k, _, hk⟩ := List.mem_map.mp hb
  rw [← hk]
  exact emitByte_le _ _ (packByte_le _ _)

theorem packRow_not (o : source_code_options) (width : Nat) (row : Nat → Bool) :
    packRow { o with invert_bits := !o.invert_bits } width row
      = (packRow o width row).map (fun b => 255 - b) := by
  unfold packRow
  rw [List.map_map]
  apply List.map_congr_left
  intro k _
  exact emitByte_not _ _ (packByte_le _ _)

theorem glyphBytes_not (o : source_code_options) (g : Glyph) :
    glyphBytes { o with invert_bits := !o.invert_bits } g
      = (glyphBytes o g).map (List.map (fun b => 255 - b)) := by
  unfold glyphBytes
  rw [List.map_append, List.map_map]
  congr 1
  · apply List.map_congr_left
    intro y _
    exact packRow_not o g.width (g.row y)
  · show (if o.include_line_spacing = true then _ else _) = _
    split
    · rw [List.map_cons, List.map_nil, packRow_not]
    · rfl

end Packing

section Generator

/-- C4: with MSB-first bit order and inversion off, a row of an 8-pixel-wide
cell in which only the leftmost pixel is set is packed to the single byte
0x80.  For every face and every options value, switching the inversion flag
(all other options fixed) replaces every emitted byte b by 0xFF - b, block by
block and row by row, so the number and the order of the emitted bytes are
unchanged; every emitted byte is at most 0xFF. -/
theorem generateBytes_msb_and_inversion :
    (∀ (o : source_code_options) (row : Nat → Bool),
        o.bit_numbering = .msb → o.invert_bits = false →
        row 0 = true → (∀ x, 0 < x → x < 8 → row x = false) →
        packRow o 8 row = [0x80])
    ∧ (∀ (f : Face) (o : source_code_options),
        generateBytes f { o with invert_bits := !o.invert_bits }
          = (generateBytes f o).map (List.map (List.map (fun b => 0xFF - b))))
    ∧ (∀ (f : Face) (o : source_code_options),
        (generateBytes f { o with invert_bits := !o.invert_bits }).flatten.flatten.length
          = (generateBytes f o).flatten.flatten.length)
    ∧ (∀ (f : Face) (o : source_code_options),
        ∀ block ∈ generateBytes f o, ∀ r ∈ block, ∀ b ∈ r, b ≤ 0xFF) := by
  have hflip : ∀ (f : Face) (o : source_code_options),
      generateBytes f { o with invert_bits := !o.invert_bits }
        = (generateBytes f o).map (List.map (List.map (fun b => 0xFF - b))) := by
    intro f o
    unfold generateBytes
    rw [List.map_map]
    have hsame : exportedGlyphs { o with invert_bits := !o.invert_bits } f
        = exportedGlyphs o f := rfl
    rw [hsame]
    apply List.map_congr_left
    intro g _
    exact glyphBytes_not o g
  refine ⟨?_, hflip, ?_, ?_⟩
  · intro o row hmsb hinv h0 hrest
    have h1 := hrest 1 (by decide) (by decide)
    have h2 := hrest 2 (by decide) (by decide)
    have h3 := hrest 3 (by decide) (by decide)
    have h4 := hrest 4 (by decide) (by decide)
    have h5 := hrest 5 (by decide) (by decide)
    have h6 := hrest 6 (by decide) (by decide)
    have h7 := hrest 7 (by decide) (by decide)
    simp [packRow, bytesPerRow, packByte, emitByte, hmsb, hinv, List.range_succ,
      h0, h1, h2, h3, h4, h5, h6, h7]
  · intro f o
    rw [hflip]
    simp [List.length_flatten, List.map_map, Function.comp_def]
  · intro f o block hblock r hr b hb
    unfold generateBytes at hblock
    obtain ⟨g, _, hg⟩ := List.mem_map.mp hblock
    rw [← hg] at hr
    unfold glyphBytes at hr
    rcases List.mem_append.mp hr with h | h
    · obtain ⟨y, _, hy⟩ := List.mem_map.mp h
      rw [← hy] at hb
      exact packRow_le _ _ _ b hb
    · split at h
      · rw [List.mem_singleton] at h
        rw [h] at hb
        exact packRow_le _ _ _ b hb
      · cases h

/-- Instance of C4: the face with one 8 × 8 glyph whose only set pixel is the
top-left one; with export-all, MSB-first, no inversion and no line spacing
the first row is the single byte 0x80, and with inversion it is 0x7F. -/
theorem generateBytes_msb_and_inversion_witness :
    packRow plainOptions 8 (cornerGlyph.row 0) = [0x80]
    ∧ ((generateBytes cornerFace plainOptions).head?.bind List.head?) = some [0x80]
    ∧ generateBytes cornerFace { plainOptions with invert_bits := true }
        = (generateBytes cornerFace plainOptions).map
            (List.map (List.map (fun b => 0xFF - b))) :=
  ⟨generateBytes_msb_and_inversion.1 plainOptions (cornerGlyph.row 0) rfl rfl
      (by decide) (fun x h0 h8 => by interval_cases x <;> decide),
   by decide,
   generateBytes_msb_and_inversion.2.1 cornerFace plainOptions⟩

end Generator

end FontEdit
